import Mathlib

/-!
Shallow embedding of the `Mutec` subsystem of `src/src/mutec.rs`:
an indexed collection of independently lockable slots. Each slot pairs a
value-cell (`Atomex<UnsafeCell<T>>`) with a queue-cell
(`Atomex<VecDeque<Thread>>`) holding waiting threads.

Sequential model: operations are functions on an explicit `Mutec` state.
Rust panics (out-of-bounds indexing, `panic!`) are modelled as `Option.none`.
A `MutecGuard` is modelled by the index it protects; the lock state lives in
the slot's `vlock` flag.
-/

namespace MutecModel

/-- One slot of the collection: the value-cell's atomic flag (`vlock`),
its payload, the queue-cell's atomic flag (`qlock`), and the queue's
`VecDeque<Thread>` payload, with threads as opaque `Nat` identifiers.
Mirrors `(Atomex<UnsafeCell<T>>, Atomex<VecDeque<Thread>>)` in
`Mutec::inner` (src/src/mutec.rs line 43). -/
structure Slot (T : Type) where
  vlock : Bool
  value : T
  qlock : Bool
  queue : List Nat
deriving Repr, DecidableEq

/-- `Mutec<T>`: a vector of slots (src/src/mutec.rs line 42). -/
structure Mutec (T : Type) where
  inner : List (Slot T)
deriving Repr, DecidableEq

/-- A fresh slot as `Mutec::push` allocates it: both atomic flags start
`false` (`AtomicBool::new(false)` in `Atomex::new`), queue empty. -/
def Slot.fresh {T : Type} (v : T) : Slot T :=
  { vlock := false, value := v, qlock := false, queue := [] }

/-- `Mutec::new()` (line 98). -/
def Mutec.new (T : Type) : Mutec T := { inner := [] }

/-- `Mutec::push(value)` (lines 103-112): appends a fresh
(value-cell, empty queue-cell) pair. -/
def Mutec.push {T : Type} (m : Mutec T) (v : T) : Mutec T :=
  { inner := m.inner ++ [Slot.fresh v] }

/-- `Mutec::len()` (line 113). -/
def Mutec.len {T : Type} (m : Mutec T) : Nat := m.inner.length

/-- `Mutec::check_lock(index)` (lines 47-49): `self.inner[index].0.check_lock()`,
an atomic load of the value-cell's flag. `none` models the panic of the
out-of-bounds `self.inner[index]`. -/
def Mutec.check_lock {T : Type} (m : Mutec T) (i : Nat) : Option Bool :=
  (m.inner[i]?).map (fun s => s.vlock)

/-- `Mutec::try_lock(index)` (lines 73-86): one compare-and-swap on the
value-cell (`Atomex::try_lock`, lines 19-33). On success the flag flips
`false → true` and a guard for `index` is returned together with the updated
state; on failure the payloadless `Err(())` is returned. `none` models the
out-of-bounds panic. -/
def Mutec.try_lock {T : Type} (m : Mutec T) (i : Nat) :
    Option (Except Unit (Nat × Mutec T)) :=
  match m.inner[i]? with
  | none => none
  | some s =>
    if s.vlock then some (Except.error ())
    else some (Except.ok (i, { inner := m.inner.set i { s with vlock := true } }))

/-- The enqueue step of `Mutec::lock` (lines 63-68), taken when the value-cell
CAS failed: try-lock the queue-cell; on success push the current thread's
handle to the back, release the queue-cell (`self.inner[index].1.unlock()`),
and park. On failure re-loop. The queue-cell flag is `true` only inside the
step, so it ends as it began; the net effect recorded here is the appended
handle. `none` models the out-of-bounds panic. -/
def Mutec.lock_enqueue {T : Type} (m : Mutec T) (i : Nat) (tid : Nat) :
    Option (Mutec T) :=
  match m.inner[i]? with
  | none => none
  | some s =>
    if s.qlock then some m
    else some { inner := m.inner.set i { s with queue := s.queue ++ [tid] } }

/-- `Mutec::unlock(index)` (lines 87-94), run by `MutecGuard::drop`:
store `false` into the value-cell's flag, then `self.inner[index].1.try_lock()`;
on success pop the front waiter and unpark it. The source never calls
`self.inner[index].1.unlock()` on this path, so a successful try-lock leaves
the queue-cell's flag `true`. Returns the new state and the handle of the
woken thread, if any. -/
def Mutec.unlock {T : Type} (m : Mutec T) (i : Nat) :
    Option (Mutec T × Option Nat) :=
  match m.inner[i]? with
  | none => none
  | some s =>
    let s1 : Slot T := { s with vlock := false }
    if s1.qlock then
      some ({ inner := m.inner.set i s1 }, none)
    else
      match s1.queue with
      | [] => some ({ inner := m.inner.set i { s1 with qlock := true } }, none)
      | w :: rest =>
        some ({ inner := m.inner.set i { s1 with qlock := true, queue := rest } },
          some w)

/-- First `lock(index)` attempt in an otherwise quiescent state
(lines 50-72): the value-cell CAS succeeds exactly when the flag is free;
when it is held the caller would enqueue and park (modelled separately by
`Mutec.lock_enqueue`). `none` models the out-of-bounds panic. -/
def Mutec.lock? {T : Type} (m : Mutec T) (i : Nat) :
    Option (Option (Nat × Mutec T)) :=
  match m.try_lock i with
  | none => none
  | some (Except.ok r) => some (some r)
  | some (Except.error _) => some none

/-- Read through a guard for index `i`: `Deref for MutecGuard`
(lines 281-286) returns the slot's value. -/
def Mutec.guard_read {T : Type} (m : Mutec T) (i : Nat) : Option T :=
  (m.inner[i]?).map (fun s => s.value)

/-- Write through a guard for index `i`: `DerefMut for MutecGuard`
(lines 287-291) gives mutable access to the slot's value. -/
def Mutec.guard_write {T : Type} (m : Mutec T) (i : Nat) (x : T) : Option (Mutec T) :=
  match m.inner[i]? with
  | none => none
  | some s => some { inner := m.inner.set i { s with value := x } }

/-- `FromIterator for Mutec` (lines 188-196): push every item in order.
Also the body of `Extend::extend` (lines 197-207), hence of
`From<[T; N]>` and `From<Vec<T>>`. -/
def Mutec.from_iter {T : Type} (l : List T) : Mutec T :=
  l.foldl Mutec.push (Mutec.new T)

/-- `From<[T; N]> for Mutec` (lines 174-180): `Mutec::new()` then
`extend(value)`, which pushes each element in order. -/
def Mutec.from_array {T : Type} (l : List T) : Mutec T :=
  l.foldl Mutec.push (Mutec.new T)

/-- `From<Vec<T>> for Mutec` (lines 181-187): `Mutec::new()` then
`extend(value)`. -/
def Mutec.from_vec {T : Type} (l : List T) : Mutec T :=
  l.foldl Mutec.push (Mutec.new T)

/-- A slot as it looks while a guard for it is alive: the value-cell's flag
was flipped to `true` by the acquiring compare-and-swap; queue untouched. -/
def Slot.locked {T : Type} (v : T) : Slot T :=
  { vlock := true, value := v, qlock := false, queue := [] }

/-- `Iter` (src/src/mutec.rs lines 211-215): the sequential cursor's own
state, a half-open index range into the parent collection. -/
structure Iter where
  index : Nat
  back_index : Nat
deriving Repr, DecidableEq

/-- `Mutec::iter()` (lines 148-154). -/
def Mutec.iter {T : Type} (m : Mutec T) : Iter :=
  { index := 0, back_index := m.inner.length }

/-- `ExactSizeIterator::len for Iter` (lines 238-242). -/
def Iter.len (it : Iter) : Nat := it.back_index - it.index

/-- `Iterator::next for Iter` (lines 216-224): yield `None` once
`index >= back_index`; otherwise advance `index` and blocking-lock the old
front index. Outer `none` covers the executions with no sequential result:
the out-of-bounds panic, and `lock` on a held slot, which in a
single-threaded run parks forever. -/
def Iter.next {T : Type} (m : Mutec T) (it : Iter) :
    Option (Option Nat × Mutec T × Iter) :=
  if it.back_index ≤ it.index then some (none, m, it)
  else
    match m.lock? it.index with
    | none => none
    | some none => none
    | some (some (g, m')) =>
      some (some g, m', { index := it.index + 1, back_index := it.back_index })

/-- `DoubleEndedIterator::next_back for Iter` (lines 229-237): yield `None`
once `back_index <= index`; otherwise decrement `back_index` and
blocking-lock it. -/
def Iter.next_back {T : Type} (m : Mutec T) (it : Iter) :
    Option (Option Nat × Mutec T × Iter) :=
  if it.back_index ≤ it.index then some (none, m, it)
  else
    match m.lock? (it.back_index - 1) with
    | none => none
    | some none => none
    | some (some (g, m')) =>
      some (some g, m', { index := it.index, back_index := it.back_index - 1 })

/-- Repeated `next` calls: the list of yields and the final states. -/
def Iter.runNext {T : Type} (m : Mutec T) (it : Iter) :
    Nat → Option (List (Option Nat) × Mutec T × Iter)
  | 0 => some ([], m, it)
  | fuel + 1 =>
    match Iter.next m it with
    | none => none
    | some (o, m', it') =>
      (Iter.runNext m' it' fuel).map (fun r => (o :: r.1, r.2))

/-- Repeated `next_back` calls. -/
def Iter.runBack {T : Type} (m : Mutec T) (it : Iter) :
    Nat → Option (List (Option Nat) × Mutec T × Iter)
  | 0 => some ([], m, it)
  | fuel + 1 =>
    match Iter.next_back m it with
    | none => none
    | some (o, m', it') =>
      (Iter.runBack m' it' fuel).map (fun r => (o :: r.1, r.2))

/-- `AsyncIter` (lines 244-247): the opportunistic cursor's state, one
"already produced" marker per index. -/
structure AsyncIter where
  progress : List Bool
deriving Repr, DecidableEq

/-- `Mutec::async_iter()` (lines 155-164): all markers start unset. -/
def Mutec.async_iter {T : Type} (m : Mutec T) : AsyncIter :=
  { progress := List.replicate m.inner.length false }

/-- Outcome of one `AsyncIter::next` call. `yields` carries the guard index
and the updated collection and cursor; `exhausted` is the `None` return;
`spins` marks the executions where the `while !done` loop re-sweeps forever
because some marker is unset but every such slot is held. -/
inductive AsyncOut (T : Type)
  | yields (g : Nat) (m : Mutec T) (it : AsyncIter)
  | exhausted
  | spins
deriving Repr, DecidableEq

/-- One sweep of the `for (index, progress) in ...` loop inside
`AsyncIter::next` (lines 251-267), over the suffix `ps` of the marker list
starting at absolute index `i`: skip set markers, `try_lock` the rest in
ascending order, return on the first success together with the `done` flag
contribution (`true` iff an unset marker was seen). Outer `none` is the
out-of-bounds panic of `try_lock`. -/
def sweepAux {T : Type} (m : Mutec T) :
    List Bool → Nat → Option (Option (Nat × Mutec T) × Bool)
  | [], _ => some (none, false)
  | p :: ps, i =>
    if p then sweepAux m ps (i + 1)
    else
      match m.try_lock i with
      | none => none
      | some (Except.ok r) => some (some r, true)
      | some (Except.error _) =>
        (sweepAux m ps (i + 1)).map (fun r => (r.1, true))

/-- `Iterator::next for AsyncIter` (lines 248-268): run one sweep; a success
sets that index's marker and returns the guard; a clean sweep with no unset
marker returns `None`; a sweep that saw an unset marker but acquired nothing
re-runs, which in a fixed state never terminates (`spins`). -/
def AsyncIter.next {T : Type} (m : Mutec T) (it : AsyncIter) :
    Option (AsyncOut T) :=
  match sweepAux m it.progress 0 with
  | none => none
  | some (some (g, m'), _) =>
    some (AsyncOut.yields g m' { progress := it.progress.set g true })
  | some (none, true) => some (AsyncOut.spins)
  | some (none, false) => some (AsyncOut.exhausted)

/-- Repeated `AsyncIter::next` calls, collecting the yielded guard indices;
stops early at `exhausted`, has no result if a call spins or panics. -/
def AsyncIter.run {T : Type} (m : Mutec T) (it : AsyncIter) :
    Nat → Option (List Nat × Mutec T × AsyncIter)
  | 0 => some ([], m, it)
  | fuel + 1 =>
    match AsyncIter.next m it with
    | none => none
    | some (AsyncOut.yields g m' it') =>
      (AsyncIter.run m' it' fuel).map (fun r => (g :: r.1, r.2))
    | some AsyncOut.exhausted => some ([], m, it)
    | some AsyncOut.spins => none

/-- The state of the collection mid-way through a forward traversal that has
produced (and still holds) guards for indices `[0, k)`: those slots' value
cells are held, the rest are fresh. -/
def midF {T : Type} (l : List T) (k : Nat) : Mutec T :=
  { inner := (l.take k).map Slot.locked ++ (l.drop k).map Slot.fresh }

/-- The state mid-way through a backward traversal that has produced guards
for the top `k` indices `[length - k, length)`. -/
def midB {T : Type} (l : List T) (k : Nat) : Mutec T :=
  { inner := (l.take (l.length - k)).map Slot.fresh
      ++ (l.drop (l.length - k)).map Slot.locked }

/-- The payload of `std::collections::TryReserveError`. Modelled from the
Rust standard library: either the requested capacity overflows or the
allocator reports failure. The repository only forwards this value. -/
inductive TryReserveError
  | capacityOverflow
  | allocError
deriving Repr, DecidableEq

/-- `Mutec::try_reserve_exact(additional)` (lines 116-118): a direct
passthrough of `Vec::try_reserve_exact`. The allocator's verdict for this
reservation is outside the embedded fragment, so it is a parameter `res`;
the method surfaces it unchanged to the caller as a `Result` and never
panics (its result type has no panic case). -/
def Mutec.try_reserve_exact {T : Type} (m : Mutec T)
    (res : Except TryReserveError Unit) : Except TryReserveError (Mutec T) :=
  match res with
  | Except.error e => Except.error e
  | Except.ok _ => Except.ok m

/-- `Mutec::extend_from_slice(slice)` (lines 119-126): first
`try_reserve_exact(slice.len())`, and `panic!` (modelled `none`) if that
returns `Err`; otherwise clone-push each element in order. `res` is the
allocator's verdict for the reservation, as in `Mutec.try_reserve_exact`. -/
def Mutec.extend_from_slice {T : Type} (m : Mutec T) (slice : List T)
    (res : Except TryReserveError Unit) : Option (Mutec T) :=
  match m.try_reserve_exact res with
  | Except.error _ => none
  | Except.ok m' => some (slice.foldl Mutec.push m')

/-- `From<&[T]> for Mutec` (lines 167-173): `Mutec::new()` then
`extend_from_slice(slice)`, here with a successful reservation. -/
def Mutec.from_slice {T : Type} (l : List T) : Option (Mutec T) :=
  (Mutec.new T).extend_from_slice l (Except.ok ())

end MutecModel

/-!
Interleaving model of the racing-threads scenario on one slot: `n` threads
each repeat `lock → read counter → write counter+1 → drop guard` `k` times
on the same index. One `Sys` state holds the slot's two atomic flags, its
wait queue, the shared counter (the slot's value), and every thread's
control point. Each `Step` constructor is one atomic transition of
`Mutec::lock` (src/src/mutec.rs lines 50-72), the guarded increment, or
`Mutec::unlock` (lines 87-94, including its missing queue-cell release).
-/

namespace MutecRace

/-- Control point of one racing thread. `ready`: about to attempt the
value-cell CAS at the top of `lock`'s loop. `parked`: enqueued and suspended
in `std::thread::park()`. `cs0`: CAS won, guard alive, increment not started.
`cs1 tmp`: read the counter through the guard into a local. `cs2`: wrote
`tmp + 1` back, guard about to drop. -/
inductive Phase
  | ready
  | parked
  | cs0
  | cs1 (tmp : Nat)
  | cs2
deriving Repr, DecidableEq

/-- One thread: its control point and its remaining iterations (counting the
one in progress while inside the critical section). -/
structure ThreadSt where
  phase : Phase
  rem : Nat
deriving Repr, DecidableEq

/-- Global state: shared counter (the slot's value), the slot's value-cell
flag, its queue-cell flag, the `VecDeque<Thread>` as a list of thread
indices, and all thread states. -/
structure Sys where
  counter : Nat
  vlock : Bool
  qlock : Bool
  queue : List Nat
  threads : List ThreadSt
deriving Repr, DecidableEq

/-- `Thread::unpark`: a parked thread becomes runnable; unparking a running
thread only stores the token, a no-op here. -/
def wake (ts : ThreadSt) : ThreadSt :=
  match ts.phase with
  | Phase.parked => { ts with phase := Phase.ready }
  | _ => ts

/-- Unpark the thread at index `w` of the thread list, if any. -/
def wakeAt (l : List ThreadSt) (w : Nat) : List ThreadSt :=
  match l[w]? with
  | some ts => l.set w (wake ts)
  | none => l

/-- Initial state: counter 0, both cells free, empty queue, `n` threads each
with `k` iterations to go. -/
def init (n k : Nat) : Sys :=
  { counter := 0, vlock := false, qlock := false, queue := []
    threads := List.replicate n { phase := Phase.ready, rem := k } }

/-- One atomic transition of the system. `acquire`/`enqueue` are the two
arms of `lock`'s loop (the failed queue-cell try re-loops, a stutter);
`readv`/`writev` are the increment through the guard; the three `release`
constructors are `unlock`'s cases on the queue-cell try-lock and the queue
contents — a successful try leaves `qlock` set, as the source never releases
it there. `spuriousWake` is `park`'s documented spurious return. -/
inductive Step : Sys → Sys → Prop
  | acquire (s : Sys) (t r : Nat) :
      s.threads[t]? = some { phase := Phase.ready, rem := r + 1 } →
      s.vlock = false →
      Step s { s with vlock := true
                      threads := s.threads.set t { phase := Phase.cs0, rem := r + 1 } }
  | enqueue (s : Sys) (t r : Nat) :
      s.threads[t]? = some { phase := Phase.ready, rem := r + 1 } →
      s.vlock = true → s.qlock = false →
      Step s { s with queue := s.queue ++ [t]
                      threads := s.threads.set t { phase := Phase.parked, rem := r + 1 } }
  | readv (s : Sys) (t r : Nat) :
      s.threads[t]? = some { phase := Phase.cs0, rem := r + 1 } →
      Step s { s with threads := s.threads.set t { phase := Phase.cs1 s.counter, rem := r + 1 } }
  | writev (s : Sys) (t r tmp : Nat) :
      s.threads[t]? = some { phase := Phase.cs1 tmp, rem := r + 1 } →
      Step s { s with counter := tmp + 1
                      threads := s.threads.set t { phase := Phase.cs2, rem := r + 1 } }
  | releaseQBusy (s : Sys) (t r : Nat) :
      s.threads[t]? = some { phase := Phase.cs2, rem := r + 1 } →
      s.qlock = true →
      Step s { s with vlock := false
                      threads := s.threads.set t { phase := Phase.ready, rem := r } }
  | releaseQEmpty (s : Sys) (t r : Nat) :
      s.threads[t]? = some { phase := Phase.cs2, rem := r + 1 } →
      s.qlock = false → s.queue = [] →
      Step s { s with vlock := false, qlock := true
                      threads := s.threads.set t { phase := Phase.ready, rem := r } }
  | releaseWake (s : Sys) (t r w : Nat) (rest : List Nat) :
      s.threads[t]? = some { phase := Phase.cs2, rem := r + 1 } →
      s.qlock = false → s.queue = w :: rest →
      Step s { s with vlock := false, qlock := true, queue := rest
                      threads := wakeAt (s.threads.set t { phase := Phase.ready, rem := r }) w }
  | spuriousWake (s : Sys) (t r : Nat) :
      s.threads[t]? = some { phase := Phase.parked, rem := r } →
      Step s { s with threads := s.threads.set t { phase := Phase.ready, rem := r } }

/-- States reachable from `init n k`. -/
inductive Reach (n k : Nat) : Sys → Prop
  | init : Reach n k (init n k)
  | step {s s' : Sys} : Reach n k s → Step s s' → Reach n k s'

/-- A guard for the slot is alive in this thread: it is inside the critical
section. -/
def ThreadSt.inCS (ts : ThreadSt) : Bool :=
  match ts.phase with
  | Phase.cs0 => true
  | Phase.cs1 _ => true
  | Phase.cs2 => true
  | _ => false

/-- At most one guard for the index is alive at any time. -/
def MutualExcl (s : Sys) : Prop :=
  ∀ (t u : Nat) (st su : ThreadSt), s.threads[t]? = some st → s.threads[u]? = some su →
    st.inCS = true → su.inCS = true → t = u

/-- Every thread has completed all its iterations. -/
def AllDone (s : Sys) : Prop :=
  ∀ (t : Nat) (st : ThreadSt), s.threads[t]? = some st →
    st = { phase := Phase.ready, rem := 0 }

/-- Increments this thread has not yet applied to the counter. -/
def contrib (ts : ThreadSt) : Nat :=
  match ts.phase with
  | Phase.cs2 => ts.rem - 1
  | _ => ts.rem

/-- The inductive invariant of the racing-threads system: at most one thread
is inside the critical section and only when the value-cell flag is set; a
read local equals the current counter; a thread about to release has an
iteration in progress; and the counter plus all pending increments is the
total. -/
structure Inv (total : Nat) (s : Sys) : Prop where
  excl : ∀ (t u : Nat) (st su : ThreadSt), s.threads[t]? = some st →
      s.threads[u]? = some su → st.inCS = true → su.inCS = true → t = u
  vfree : s.vlock = false →
      ∀ (t : Nat) (st : ThreadSt), s.threads[t]? = some st → st.inCS = false
  cur : ∀ (t : Nat) (st : ThreadSt) (tmp : Nat), s.threads[t]? = some st →
      st.phase = Phase.cs1 tmp → tmp = s.counter
  pos : ∀ (t : Nat) (st : ThreadSt), s.threads[t]? = some st →
      st.phase = Phase.cs2 → 1 ≤ st.rem
  sum_eq : s.counter + (s.threads.map contrib).sum = total

end MutecRace

namespace MutecModel

theorem foldl_push_inner {T : Type} (l : List T) (m : Mutec T) :
    (l.foldl Mutec.push m).inner = m.inner ++ l.map Slot.fresh := by
  induction l generalizing m with
  | nil => simp
  | cons a l ih => simp [List.foldl_cons, ih, Mutec.push]

theorem from_iter_inner {T : Type} (l : List T) :
    (Mutec.from_iter l).inner = l.map Slot.fresh := by
  simp [Mutec.from_iter, foldl_push_inner, Mutec.new]

theorem midF_zero {T : Type} (l : List T) : midF l 0 = Mutec.from_iter l := by
  simp only [midF, List.take_zero, List.map_nil, List.nil_append, List.drop_zero]
  exact congrArg Mutec.mk (from_iter_inner l).symm

theorem midB_zero {T : Type} (l : List T) : midB l 0 = Mutec.from_iter l := by
  simp only [midB, Nat.sub_zero, List.take_length, List.drop_length, List.map_nil,
    List.append_nil]
  exact congrArg Mutec.mk (from_iter_inner l).symm

theorem midF_len {T : Type} (l : List T) (k : Nat) (h : k ≤ l.length) :
    (midF l k).inner.length = l.length := by
  simp [midF, List.length_take]
  omega

theorem midF_step {T : Type} (l : List T) (k : Nat) (h : k < l.length) :
    (midF l k).try_lock k = some (Except.ok (k, midF l (k + 1))) := by
  have hk : k ≤ l.length := le_of_lt h
  have hlen : ((l.take k).map (Slot.locked (T := T))).length = k := by
    simp [List.length_map, List.length_take]
    omega
  have hget : (midF l k).inner[k]? = some (Slot.fresh l[k]) := by
    show ((l.take k).map Slot.locked ++ (l.drop k).map Slot.fresh)[k]? = _
    rw [List.getElem?_append_right (by omega)]
    rw [hlen]
    simp [List.getElem?_map, List.getElem?_drop, List.getElem?_eq_getElem h]
  have hset : (midF l k).inner.set k (Slot.locked l[k]) = (midF l (k + 1)).inner := by
    show ((l.take k).map Slot.locked ++ (l.drop k).map Slot.fresh).set k _ = _
    rw [List.set_append]
    rw [hlen]
    simp only [lt_irrefl, if_neg (lt_irrefl k), Nat.sub_self]
    rw [List.drop_eq_getElem_cons h]
    show (l.take k).map Slot.locked ++ Slot.locked l[k] :: (l.drop (k+1)).map Slot.fresh
      = ((l.take (k+1)).map Slot.locked) ++ (l.drop (k+1)).map Slot.fresh
    rw [← List.take_concat_get l k h, List.concat_eq_append, List.map_append]
    simp
  unfold Mutec.try_lock
  rw [hget]
  exact congrArg (fun x => some (Except.ok (k, ({ inner := x } : Mutec T)))) hset

end MutecModel

namespace MutecModel

theorem midB_step {T : Type} (l : List T) (k : Nat) (h : k < l.length) :
    (midB l k).try_lock (l.length - k - 1)
      = some (Except.ok (l.length - k - 1, midB l (k + 1))) := by
  obtain ⟨j, hj⟩ : ∃ j, l.length - k = j + 1 := ⟨l.length - k - 1, by omega⟩
  have hj1 : l.length - k - 1 = j := by omega
  have hj2 : l.length - (k + 1) = j := by omega
  have hjlen : j < l.length := by omega
  rw [hj1]
  unfold midB
  rw [hj, hj2]
  have hlenL : ((l.take (j + 1)).map (Slot.fresh (T := T))).length = j + 1 := by
    simp [List.length_take]
    omega
  have hget : ((l.take (j + 1)).map Slot.fresh ++ (l.drop (j + 1)).map Slot.locked)[j]?
      = some (Slot.fresh l[j]) := by
    rw [List.getElem?_append_left (by omega)]
    rw [List.getElem?_map]
    rw [List.getElem?_take, if_pos (by omega), List.getElem?_eq_getElem hjlen]
    rfl
  have hset : ((l.take (j + 1)).map Slot.fresh ++ (l.drop (j + 1)).map Slot.locked).set j
        (Slot.locked l[j])
      = (l.take j).map Slot.fresh ++ (l.drop j).map Slot.locked := by
    rw [List.set_append, hlenL, if_pos (Nat.lt_succ_self j)]
    rw [← List.take_concat_get l j hjlen, List.concat_eq_append, List.map_append]
    rw [List.set_append]
    have hlen2 : ((l.take j).map (Slot.fresh (T := T))).length = j := by
      simp [List.length_take]
      omega
    rw [hlen2, if_neg (lt_irrefl j), Nat.sub_self]
    rw [List.drop_eq_getElem_cons hjlen]
    simp only [List.map_cons, List.map_nil, List.set_cons_zero, List.append_assoc,
      List.singleton_append]
  unfold Mutec.try_lock
  rw [hget]
  exact congrArg (fun x => some (Except.ok (j, ({ inner := x } : Mutec T)))) hset

theorem runNext_midF {T : Type} (l : List T) :
    ∀ (j k : Nat), k + j ≤ l.length →
    Iter.runNext (midF l k) { index := k, back_index := l.length } j =
      some ((List.range' k j).map some, midF l (k + j),
        { index := k + j, back_index := l.length }) := by
  intro j
  induction j with
  | zero => intro k hk; simp [Iter.runNext]
  | succ j ih =>
    intro k hk
    have hk1 : k < l.length := by omega
    have hnext : Iter.next (midF l k) { index := k, back_index := l.length }
        = some (some k, midF l (k + 1), { index := k + 1, back_index := l.length }) := by
      unfold Iter.next
      rw [if_neg (by simp; omega)]
      unfold Mutec.lock?
      rw [midF_step l k hk1]
    simp only [Iter.runNext]
    rw [hnext]
    simp only [Option.map_eq_map]
    rw [ih (k + 1) (by omega)]
    have ha : k + 1 + j = k + (j + 1) := by omega
    simp [List.range'_succ, ha]

theorem runBack_midB {T : Type} (l : List T) :
    ∀ (j k : Nat), k + j ≤ l.length →
    Iter.runBack (midB l k) { index := 0, back_index := l.length - k } j =
      some (((List.range' (l.length - k - j) j).reverse).map some, midB l (k + j),
        { index := 0, back_index := l.length - (k + j) }) := by
  intro j
  induction j with
  | zero => intro k hk; simp [Iter.runBack]
  | succ j ih =>
    intro k hk
    have hk1 : k < l.length := by omega
    have hnext : Iter.next_back (midB l k) { index := 0, back_index := l.length - k }
        = some (some (l.length - k - 1), midB l (k + 1),
            { index := 0, back_index := l.length - (k + 1) }) := by
      unfold Iter.next_back
      rw [if_neg (by simp; omega)]
      unfold Mutec.lock?
      rw [midB_step l k hk1]
      have : l.length - k - 1 = l.length - (k + 1) := by omega
      rw [this]
    simp only [Iter.runBack]
    rw [hnext]
    simp only [Option.map_eq_map]
    rw [ih (k + 1) (by omega)]
    have ha : k + 1 + j = k + (j + 1) := by omega
    have hb : l.length - (k + 1) - j = l.length - k - (j + 1) := by omega
    have hc : List.range' (l.length - k - (j + 1)) (j + 1)
        = List.range' (l.length - k - (j + 1)) j ++ [l.length - k - (j + 1) + 1 * j] := by
      exact List.range'_concat _ _
    have hd : l.length - k - (j + 1) + 1 * j = l.length - (k + 1) := by omega
    simp [ha, hb, hc, hd]
    omega

end MutecModel

namespace MutecModel

theorem try_lock_ok {T : Type} {m : Mutec T} {i g : Nat} {m' : Mutec T}
    (h : m.try_lock i = some (Except.ok (g, m'))) :
    g = i ∧ ∃ s : Slot T, m.inner[i]? = some s ∧ s.vlock = false ∧
      m' = { inner := m.inner.set i { s with vlock := true } } := by
  unfold Mutec.try_lock at h
  split at h
  · exact absurd h (by simp)
  · next s hs =>
    split at h
    · exact absurd h (by simp)
    · next hv =>
      have h2 : (i, ({ inner := m.inner.set i { s with vlock := true } } : Mutec T))
          = (g, m') := by simpa using h
      have hg : i = g := congrArg Prod.fst h2
      have hm : ({ inner := m.inner.set i { s with vlock := true } } : Mutec T) = m' :=
        congrArg Prod.snd h2
      exact ⟨hg.symm, s, hs, by simpa using hv, hm.symm⟩

theorem try_lock_error {T : Type} {m : Mutec T} {i : Nat}
    (h : m.try_lock i = some (Except.error ())) :
    m.check_lock i = some true := by
  unfold Mutec.try_lock at h
  split at h
  · exact absurd h (by simp)
  · next s hs =>
    split at h
    · next hv => simp [Mutec.check_lock, hs, hv]
    · exact absurd h (by simp)

theorem sweepAux_yields {T : Type} {m : Mutec T} :
    ∀ {ps : List Bool} {i g : Nat} {m' : Mutec T} {saw : Bool},
    sweepAux m ps i = some (some (g, m'), saw) →
    ∃ d, g = i + d ∧ ps[d]? = some false ∧
      m.try_lock g = some (Except.ok (g, m')) ∧
      (∀ e, e < d → ps[e]? = some true ∨ m.check_lock (i + e) = some true) := by
  intro ps
  induction ps with
  | nil => intro i g m' saw h; exact absurd h (by simp [sweepAux])
  | cons p ps ih =>
    intro i g m' saw h
    by_cases hp : p
    · subst hp
      rw [show sweepAux m (true :: ps) i = sweepAux m ps (i + 1) from rfl] at h
      obtain ⟨d, hd1, hd2, hd3, hd4⟩ := ih h
      refine ⟨d + 1, by omega, by simpa using hd2, hd3, ?_⟩
      intro e he
      cases e with
      | zero => exact Or.inl (by simp)
      | succ e =>
        have := hd4 e (by omega)
        rw [show i + (e + 1) = i + 1 + e by omega]
        simpa using this
    · have hp' : p = false := by simpa using hp
      subst hp'
      rw [show sweepAux m (false :: ps) i
          = (match m.try_lock i with
             | none => none
             | some (Except.ok r) => some (some r, true)
             | some (Except.error _) =>
               (sweepAux m ps (i + 1)).map (fun r => (r.1, true))) from rfl] at h
      cases htl : m.try_lock i with
      | none => rw [htl] at h; exact absurd h (by simp)
      | some res =>
        rw [htl] at h
        cases res with
        | ok r =>
          simp only at h
          have hr : r = (g, m') ∧ true = saw := by simpa using h
          rw [hr.1] at htl
          obtain ⟨hg, s, hs, hv, hm'⟩ := try_lock_ok htl
          subst hg
          exact ⟨0, by omega, by simp, htl, fun e he => absurd he (by omega)⟩
        | error u =>
          cases u
          simp only at h
          cases hrec : sweepAux m ps (i + 1) with
          | none => rw [hrec] at h; exact absurd h (by simp)
          | some rr =>
            rw [hrec] at h
            obtain ⟨f1, f2⟩ := rr
            have hf : f1 = some (g, m') ∧ true = saw := by simpa using h
            have hh : sweepAux m ps (i + 1) = some (some (g, m'), f2) := by
              rw [hrec, hf.1]
            obtain ⟨d, hd1, hd2, hd3, hd4⟩ := ih hh
            refine ⟨d + 1, by omega, by simpa using hd2, hd3, ?_⟩
            intro e he
            cases e with
            | zero =>
              refine Or.inr ?_
              have := try_lock_error htl
              simpa using this
            | succ e =>
              have := hd4 e (by omega)
              rw [show i + (e + 1) = i + 1 + e by omega]
              simpa using this

theorem sweepAux_no_find {T : Type} {m : Mutec T} :
    ∀ {ps : List Bool} {i : Nat} {saw : Bool},
    sweepAux m ps i = some (none, saw) →
    (∀ d : Nat, ps[d]? = some false → m.check_lock (i + d) = some true) ∧
      (saw = true ↔ ∃ d : Nat, ps[d]? = some false) := by
  intro ps
  induction ps with
  | nil =>
    intro i saw h
    have hsaw : saw = false := by
      have : (none, false) = ((none : Option (Nat × Mutec T)), saw) := by
        simpa [sweepAux] using h
      simpa using (congrArg Prod.snd this)
    subst hsaw
    refine ⟨?_, by simp⟩
    intro d hd
    simp at hd
  | cons p ps ih =>
    intro i saw h
    by_cases hp : p
    · subst hp
      rw [show sweepAux m (true :: ps) i = sweepAux m ps (i + 1) from rfl] at h
      obtain ⟨h1, h2⟩ := ih h
      constructor
      · intro d hd
        cases d with
        | zero => exact absurd hd (by simp)
        | succ d =>
          have := h1 d (by simpa using hd)
          rw [show i + (d + 1) = i + 1 + d by omega]
          exact this
      · rw [h2]
        constructor
        · rintro ⟨d, hd⟩
          exact ⟨d + 1, by simpa using hd⟩
        · rintro ⟨d, hd⟩
          cases d with
          | zero => exact absurd hd (by simp)
          | succ d => exact ⟨d, by simpa using hd⟩
    · have hp' : p = false := by simpa using hp
      subst hp'
      rw [show sweepAux m (false :: ps) i
          = (match m.try_lock i with
             | none => none
             | some (Except.ok r) => some (some r, true)
             | some (Except.error _) =>
               (sweepAux m ps (i + 1)).map (fun r => (r.1, true))) from rfl] at h
      cases htl : m.try_lock i with
      | none => rw [htl] at h; exact absurd h (by simp)
      | some res =>
        rw [htl] at h
        cases res with
        | ok r => exact absurd h (by simp)
        | error u =>
          cases u
          simp only at h
          cases hrec : sweepAux m ps (i + 1) with
          | none => rw [hrec] at h; exact absurd h (by simp)
          | some rr =>
            rw [hrec] at h
            obtain ⟨f1, f2⟩ := rr
            have hf : f1 = none ∧ true = saw := by simpa using h
            have hh : sweepAux m ps (i + 1) = some (none, f2) := by rw [hrec, hf.1]
            obtain ⟨h1, _⟩ := ih hh
            constructor
            · intro d hd
              cases d with
              | zero =>
                have := try_lock_error htl
                simpa using this
              | succ d =>
                have := h1 d (by simpa using hd)
                rw [show i + (d + 1) = i + 1 + d by omega]
                exact this
            · rw [← hf.2]
              simp only [true_iff]
              exact ⟨0, by simp⟩

theorem sweepAux_all_true {T : Type} (m : Mutec T) :
    ∀ (ps : List Bool) (i : Nat), ps.all (fun b => b) = true →
    sweepAux m ps i = some (none, false) := by
  intro ps
  induction ps with
  | nil => intro i _; rfl
  | cons p ps ih =>
    intro i hall
    rw [List.all_cons, Bool.and_eq_true] at hall
    have hp : p = true := hall.1
    subst hp
    exact ih (i + 1) hall.2

end MutecModel

namespace MutecModel

theorem sweepAux_skip_true {T : Type} (m : Mutec T) :
    ∀ (k : Nat) (ps : List Bool) (i : Nat),
    sweepAux m (List.replicate k true ++ ps) i = sweepAux m ps (i + k) := by
  intro k
  induction k with
  | zero => intro ps i; simp
  | succ k ih =>
    intro ps i
    rw [List.replicate_succ, List.cons_append]
    rw [show sweepAux m (true :: (List.replicate k true ++ ps)) i
        = sweepAux m (List.replicate k true ++ ps) (i + 1) from rfl]
    rw [ih ps (i + 1)]
    congr 1
    omega

theorem sweep_prog {T : Type} (l : List T) (k r : Nat) (h : l.length = k + r + 1) :
    sweepAux (midF l k) (List.replicate k true ++ false :: List.replicate r false) 0
      = some (some (k, midF l (k + 1)), true) := by
  rw [sweepAux_skip_true]
  rw [show (0 + k) = k by omega]
  rw [show sweepAux (midF l k) (false :: List.replicate r false) k
      = (match (midF l k).try_lock k with
         | none => none
         | some (Except.ok a) => some (some a, true)
         | some (Except.error _) =>
           (sweepAux (midF l k) (List.replicate r false) (k + 1)).map
             (fun a => (a.1, true))) from rfl]
  rw [midF_step l k (by omega)]

theorem asyncNext_prog {T : Type} (l : List T) (k : Nat) (h : k < l.length) :
    AsyncIter.next (midF l k)
      { progress := List.replicate k true ++ List.replicate (l.length - k) false }
      = some (AsyncOut.yields k (midF l (k + 1))
          { progress := List.replicate (k + 1) true
              ++ List.replicate (l.length - (k + 1)) false }) := by
  have hr : l.length - k = (l.length - (k + 1)) + 1 := by omega
  unfold AsyncIter.next
  rw [hr, List.replicate_succ]
  rw [sweep_prog l k (l.length - (k + 1)) (by omega)]
  have hset : (List.replicate k true ++ false :: List.replicate (l.length - (k + 1)) false).set
        k true
      = List.replicate (k + 1) true ++ List.replicate (l.length - (k + 1)) false := by
    rw [List.set_append, List.length_replicate, if_neg (lt_irrefl k), Nat.sub_self,
      List.set_cons_zero]
    rw [List.replicate_succ' k true, List.append_assoc, List.singleton_append]
  exact congrArg
    (fun ps => some (AsyncOut.yields k (midF l (k + 1)) ({ progress := ps } : AsyncIter)))
    hset

theorem asyncRun_prog {T : Type} (l : List T) :
    ∀ (j k : Nat), k + j ≤ l.length →
    AsyncIter.run (midF l k)
      { progress := List.replicate k true ++ List.replicate (l.length - k) false } j
      = some (List.range' k j, midF l (k + j),
          { progress := List.replicate (k + j) true
              ++ List.replicate (l.length - (k + j)) false }) := by
  intro j
  induction j with
  | zero => intro k hk; simp [AsyncIter.run]
  | succ j ih =>
    intro k hk
    simp only [AsyncIter.run]
    rw [asyncNext_prog l k (by omega)]
    simp only [Option.map_eq_map]
    rw [ih (k + 1) (by omega)]
    have ha : k + 1 + j = k + (j + 1) := by omega
    simp [List.range'_succ, ha]

end MutecModel


namespace MutecRace

theorem contrib_wake (ts : ThreadSt) : contrib (wake ts) = contrib ts := by
  cases ts with
  | mk p r => cases p <;> rfl

theorem inCS_wake (ts : ThreadSt) : (wake ts).inCS = ts.inCS := by
  cases ts with
  | mk p r => cases p <;> rfl

theorem rem_wake (ts : ThreadSt) : (wake ts).rem = ts.rem := by
  cases ts with
  | mk p r => cases p <;> rfl

theorem wake_phase_cs1 (ts : ThreadSt) (tmp : Nat) :
    (wake ts).phase = Phase.cs1 tmp ↔ ts.phase = Phase.cs1 tmp := by
  cases ts with
  | mk p r => cases p <;> simp [wake]

theorem wake_phase_cs2 (ts : ThreadSt) :
    (wake ts).phase = Phase.cs2 ↔ ts.phase = Phase.cs2 := by
  cases ts with
  | mk p r => cases p <;> simp [wake]

theorem sum_map_set (f : ThreadSt → Nat) :
    ∀ (l : List ThreadSt) (t : Nat) (v st : ThreadSt), l[t]? = some st →
    ((l.set t v).map f).sum + f st = (l.map f).sum + f v := by
  intro l
  induction l with
  | nil => intro t v st h; simp at h
  | cons a l ih =>
    intro t v st h
    cases t with
    | zero =>
      have ha : a = st := by simpa using h
      subst ha
      rw [show (a :: l).set 0 v = v :: l from rfl]
      simp [List.map_cons]
      omega
    | succ t =>
      have h' : l[t]? = some st := by simpa using h
      have ihh := ih t v st h'
      rw [show (a :: l).set (t + 1) v = a :: l.set t v from rfl]
      simp only [List.map_cons, List.sum_cons]
      omega

theorem sum_map_wakeAt (l : List ThreadSt) (w : Nat) :
    ((wakeAt l w).map contrib).sum = (l.map contrib).sum := by
  unfold wakeAt
  cases hw : l[w]? with
  | none => rfl
  | some ts =>
    show ((l.set w (wake ts)).map contrib).sum = (l.map contrib).sum
    have := sum_map_set contrib l w (wake ts) ts hw
    rw [contrib_wake] at this
    omega

theorem wakeAt_getElem? (l : List ThreadSt) (w u : Nat) :
    (wakeAt l w)[u]? = if w = u then (l[u]?).map wake else l[u]? := by
  unfold wakeAt
  cases hw : l[w]? with
  | none =>
    by_cases hwu : w = u
    · subst hwu
      simp [hw]
    · simp [hwu]
  | some ts =>
    have hlt : w < l.length := (List.getElem?_eq_some.mp hw).1
    rw [List.getElem?_set]
    by_cases hwu : w = u
    · subst hwu
      simp [hlt, hw]
    · simp [hwu]

theorem inv_init (n k : Nat) : Inv (n * k) (init n k) := by
  refine ⟨?_, ?_, ?_, ?_, ?_⟩
  · intro t u st su ht hu hct hcu
    have hst : st = { phase := Phase.ready, rem := k } := by
      have := ht
      rw [show (init n k).threads = List.replicate n { phase := Phase.ready, rem := k }
        from rfl] at this
      rw [List.getElem?_replicate] at this
      split at this
      · simpa using this.symm
      · simp at this
    rw [hst] at hct
    simp [ThreadSt.inCS] at hct
  · intro _ t st ht
    rw [show (init n k).threads = List.replicate n { phase := Phase.ready, rem := k }
      from rfl] at ht
    rw [List.getElem?_replicate] at ht
    split at ht
    · have : ({ phase := Phase.ready, rem := k } : ThreadSt) = st := by simpa using ht
      rw [← this]
      rfl
    · simp at ht
  · intro t st tmp ht hph
    rw [show (init n k).threads = List.replicate n { phase := Phase.ready, rem := k }
      from rfl] at ht
    rw [List.getElem?_replicate] at ht
    split at ht
    · have : ({ phase := Phase.ready, rem := k } : ThreadSt) = st := by simpa using ht
      rw [← this] at hph
      simp at hph
    · simp at ht
  · intro t st ht hph
    rw [show (init n k).threads = List.replicate n { phase := Phase.ready, rem := k }
      from rfl] at ht
    rw [List.getElem?_replicate] at ht
    split at ht
    · have : ({ phase := Phase.ready, rem := k } : ThreadSt) = st := by simpa using ht
      rw [← this] at hph
      simp at hph
    · simp at ht
  · show 0 + ((List.replicate n { phase := Phase.ready, rem := k }).map contrib).sum = n * k
    rw [List.map_replicate]
    rw [show contrib { phase := Phase.ready, rem := k } = k from rfl]
    rw [List.sum_replicate, smul_eq_mul]
    omega

end MutecRace

namespace MutecRace

theorem set_getElem?_cases (l : List ThreadSt) (t : Nat) (v st su : ThreadSt) (u : Nat)
    (hp : l[t]? = some st) (hu : (l.set t v)[u]? = some su) :
    (u = t ∧ su = v) ∨ (u ≠ t ∧ l[u]? = some su) := by
  have hlt : t < l.length := (List.getElem?_eq_some.mp hp).1
  by_cases hut : u = t
  · subst hut
    rw [List.getElem?_set] at hu
    simp only [if_pos rfl, if_pos hlt] at hu
    exact Or.inl ⟨rfl, by simpa using hu.symm⟩
  · refine Or.inr ⟨hut, ?_⟩
    rw [List.getElem?_set_ne (by omega)] at hu
    exact hu

theorem set_getElem?_self (l : List ThreadSt) (t : Nat) (v st : ThreadSt)
    (hp : l[t]? = some st) : (l.set t v)[t]? = some v := by
  have hlt : t < l.length := (List.getElem?_eq_some.mp hp).1
  rw [List.getElem?_set]
  simp [hlt]

theorem wake_set_cases (l : List ThreadSt) (t w : Nat) (v st su : ThreadSt) (u : Nat)
    (hp : l[t]? = some st) (hu : (wakeAt (l.set t v) w)[u]? = some su) :
    (u = t ∧ (su = v ∨ su = wake v)) ∨
      (u ≠ t ∧ ∃ s0, l[u]? = some s0 ∧ (su = s0 ∨ su = wake s0)) := by
  rw [wakeAt_getElem?] at hu
  by_cases hwu : w = u
  · rw [if_pos hwu] at hu
    cases hq : (l.set t v)[u]? with
    | none => rw [hq] at hu; simp at hu
    | some s1 =>
      rw [hq] at hu
      have hsu : su = wake s1 := by
        have : some (wake s1) = some su := by simpa using hu
        simpa using this.symm
      rcases set_getElem?_cases l t v st s1 u hp hq with ⟨hut, hs1⟩ | ⟨hut, hq'⟩
      · exact Or.inl ⟨hut, Or.inr (by rw [hsu, hs1])⟩
      · exact Or.inr ⟨hut, s1, hq', Or.inr hsu⟩
  · rw [if_neg hwu] at hu
    rcases set_getElem?_cases l t v st su u hp hu with ⟨hut, hs⟩ | ⟨hut, hq'⟩
    · exact Or.inl ⟨hut, Or.inl hs⟩
    · exact Or.inr ⟨hut, su, hq', Or.inl rfl⟩

theorem inv_step {total : Nat} {s s' : Sys} (hs : Inv total s) (hstep : Step s s') :
    Inv total s' := by
  obtain ⟨excl, vfree, cur, pos, sum_eq⟩ := hs
  cases hstep with
  | acquire t r hp hv =>
    refine ⟨?_, ?_, ?_, ?_, ?_⟩
    · intro a b sa sb ha hb hca hcb
      rcases set_getElem?_cases _ _ _ _ _ _ hp ha with ⟨hat, hsa⟩ | ⟨hat, ha'⟩
      · rcases set_getElem?_cases _ _ _ _ _ _ hp hb with ⟨hbt, hsb⟩ | ⟨hbt, hb'⟩
        · rw [hat, hbt]
        · exact absurd hcb (by rw [vfree hv b sb hb']; simp)
      · exact absurd hca (by rw [vfree hv a sa ha']; simp)
    · intro hf
      exact absurd hf (by simp)
    · intro a sa tmp ha hph
      rcases set_getElem?_cases _ _ _ _ _ _ hp ha with ⟨hat, hsa⟩ | ⟨hat, ha'⟩
      · rw [hsa] at hph
        exact absurd hph (by simp)
      · exact cur a sa tmp ha' hph
    · intro a sa ha hph
      rcases set_getElem?_cases _ _ _ _ _ _ hp ha with ⟨hat, hsa⟩ | ⟨hat, ha'⟩
      · rw [hsa] at hph
        exact absurd hph (by simp)
      · exact pos a sa ha' hph
    · show s.counter + ((s.threads.set t _).map contrib).sum = total
      have hss := sum_map_set contrib s.threads t
        { phase := Phase.cs0, rem := r + 1 } { phase := Phase.ready, rem := r + 1 } hp
      have h1 : contrib { phase := Phase.ready, rem := r + 1 } = r + 1 := rfl
      have h2 : contrib { phase := Phase.cs0, rem := r + 1 } = r + 1 := rfl
      rw [h1, h2] at hss
      omega
  | enqueue t r hp hv hq =>
    refine ⟨?_, ?_, ?_, ?_, ?_⟩
    · intro a b sa sb ha hb hca hcb
      rcases set_getElem?_cases _ _ _ _ _ _ hp ha with ⟨hat, hsa⟩ | ⟨hat, ha'⟩
      · rw [hsa] at hca
        exact absurd hca (by simp [ThreadSt.inCS])
      · rcases set_getElem?_cases _ _ _ _ _ _ hp hb with ⟨hbt, hsb⟩ | ⟨hbt, hb'⟩
        · rw [hsb] at hcb
          exact absurd hcb (by simp [ThreadSt.inCS])
        · exact excl a b sa sb ha' hb' hca hcb
    · intro hf
      have : s.vlock = false := by simpa using hf
      rw [hv] at this
      exact absurd this (by simp)
    · intro a sa tmp ha hph
      rcases set_getElem?_cases _ _ _ _ _ _ hp ha with ⟨hat, hsa⟩ | ⟨hat, ha'⟩
      · rw [hsa] at hph
        exact absurd hph (by simp)
      · exact cur a sa tmp ha' hph
    · intro a sa ha hph
      rcases set_getElem?_cases _ _ _ _ _ _ hp ha with ⟨hat, hsa⟩ | ⟨hat, ha'⟩
      · rw [hsa] at hph
        exact absurd hph (by simp)
      · exact pos a sa ha' hph
    · show s.counter + ((s.threads.set t _).map contrib).sum = total
      have hss := sum_map_set contrib s.threads t
        { phase := Phase.parked, rem := r + 1 } { phase := Phase.ready, rem := r + 1 } hp
      have h1 : contrib { phase := Phase.ready, rem := r + 1 } = r + 1 := rfl
      have h2 : contrib { phase := Phase.parked, rem := r + 1 } = r + 1 := rfl
      rw [h1, h2] at hss
      omega
  | readv t r hp =>
    refine ⟨?_, ?_, ?_, ?_, ?_⟩
    · intro a b sa sb ha hb hca hcb
      rcases set_getElem?_cases _ _ _ _ _ _ hp ha with ⟨hat, hsa⟩ | ⟨hat, ha'⟩
      · rcases set_getElem?_cases _ _ _ _ _ _ hp hb with ⟨hbt, hsb⟩ | ⟨hbt, hb'⟩
        · rw [hat, hbt]
        · exact absurd (excl b t sb _ hb' hp hcb rfl) hbt
      · exact absurd (excl a t sa _ ha' hp hca rfl) hat
    · intro hf
      have hv : s.vlock = false := by simpa using hf
      have := vfree hv t _ hp
      exact absurd this (by simp [ThreadSt.inCS])
    · intro a sa tmp ha hph
      rcases set_getElem?_cases _ _ _ _ _ _ hp ha with ⟨hat, hsa⟩ | ⟨hat, ha'⟩
      · rw [hsa] at hph
        have : s.counter = tmp := by
          have := hph
          simpa using this
        show tmp = s.counter
        omega
      · exact cur a sa tmp ha' hph
    · intro a sa ha hph
      rcases set_getElem?_cases _ _ _ _ _ _ hp ha with ⟨hat, hsa⟩ | ⟨hat, ha'⟩
      · rw [hsa] at hph
        exact absurd hph (by simp)
      · exact pos a sa ha' hph
    · show s.counter + ((s.threads.set t _).map contrib).sum = total
      have hss := sum_map_set contrib s.threads t
        { phase := Phase.cs1 s.counter, rem := r + 1 } { phase := Phase.cs0, rem := r + 1 } hp
      have h1 : contrib { phase := Phase.cs0, rem := r + 1 } = r + 1 := rfl
      have h2 : contrib { phase := Phase.cs1 s.counter, rem := r + 1 } = r + 1 := rfl
      rw [h1, h2] at hss
      omega
  | writev t r tmp hp =>
    have htmp : tmp = s.counter := cur t _ tmp hp rfl
    refine ⟨?_, ?_, ?_, ?_, ?_⟩
    · intro a b sa sb ha hb hca hcb
      rcases set_getElem?_cases _ _ _ _ _ _ hp ha with ⟨hat, hsa⟩ | ⟨hat, ha'⟩
      · rcases set_getElem?_cases _ _ _ _ _ _ hp hb with ⟨hbt, hsb⟩ | ⟨hbt, hb'⟩
        · rw [hat, hbt]
        · exact absurd (excl b t sb _ hb' hp hcb rfl) hbt
      · exact absurd (excl a t sa _ ha' hp hca rfl) hat
    · intro hf
      have hv : s.vlock = false := by simpa using hf
      have := vfree hv t _ hp
      exact absurd this (by simp [ThreadSt.inCS])
    · intro a sa tmp' ha hph
      rcases set_getElem?_cases _ _ _ _ _ _ hp ha with ⟨hat, hsa⟩ | ⟨hat, ha'⟩
      · rw [hsa] at hph
        exact absurd hph (by simp)
      · have hcs : sa.inCS = true := by
          cases hsa : sa with
          | mk p rm =>
            rw [hsa] at hph
            simp only at hph
            rw [hph]
            rfl
        exact absurd (excl a t sa _ ha' hp hcs rfl) hat
    · intro a sa ha hph
      rcases set_getElem?_cases _ _ _ _ _ _ hp ha with ⟨hat, hsa⟩ | ⟨hat, ha'⟩
      · rw [hsa]
        simp
      · exact pos a sa ha' hph
    · show tmp + 1 + ((s.threads.set t _).map contrib).sum = total
      have hss := sum_map_set contrib s.threads t
        { phase := Phase.cs2, rem := r + 1 } { phase := Phase.cs1 tmp, rem := r + 1 } hp
      have h1 : contrib { phase := Phase.cs1 tmp, rem := r + 1 } = r + 1 := rfl
      have h2 : contrib { phase := Phase.cs2, rem := r + 1 } = r := rfl
      rw [h1, h2] at hss
      omega
  | releaseQBusy t r hp hq =>
    refine ⟨?_, ?_, ?_, ?_, ?_⟩
    · intro a b sa sb ha hb hca hcb
      exfalso
      rcases set_getElem?_cases _ _ _ _ _ _ hp ha with ⟨hat, hsa⟩ | ⟨hat, ha'⟩
      · rw [hsa] at hca
        exact absurd hca (by simp [ThreadSt.inCS])
      · exact hat (excl a t sa _ ha' hp hca rfl)
    · intro _ a sa ha
      rcases set_getElem?_cases _ _ _ _ _ _ hp ha with ⟨hat, hsa⟩ | ⟨hat, ha'⟩
      · rw [hsa]
        rfl
      · cases hc : sa.inCS with
        | false => rfl
        | true => exact absurd (excl a t sa _ ha' hp hc rfl) hat
    · intro a sa tmp ha hph
      rcases set_getElem?_cases _ _ _ _ _ _ hp ha with ⟨hat, hsa⟩ | ⟨hat, ha'⟩
      · rw [hsa] at hph
        exact absurd hph (by simp)
      · exact cur a sa tmp ha' hph
    · intro a sa ha hph
      rcases set_getElem?_cases _ _ _ _ _ _ hp ha with ⟨hat, hsa⟩ | ⟨hat, ha'⟩
      · rw [hsa] at hph
        exact absurd hph (by simp)
      · exact pos a sa ha' hph
    · show s.counter + ((s.threads.set t _).map contrib).sum = total
      have hss := sum_map_set contrib s.threads t
        { phase := Phase.ready, rem := r } { phase := Phase.cs2, rem := r + 1 } hp
      have h1 : contrib { phase := Phase.cs2, rem := r + 1 } = r := rfl
      have h2 : contrib { phase := Phase.ready, rem := r } = r := rfl
      rw [h1, h2] at hss
      omega
  | releaseQEmpty t r hp hq hqu =>
    refine ⟨?_, ?_, ?_, ?_, ?_⟩
    · intro a b sa sb ha hb hca hcb
      exfalso
      rcases set_getElem?_cases _ _ _ _ _ _ hp ha with ⟨hat, hsa⟩ | ⟨hat, ha'⟩
      · rw [hsa] at hca
        exact absurd hca (by simp [ThreadSt.inCS])
      · exact hat (excl a t sa _ ha' hp hca rfl)
    · intro _ a sa ha
      rcases set_getElem?_cases _ _ _ _ _ _ hp ha with ⟨hat, hsa⟩ | ⟨hat, ha'⟩
      · rw [hsa]
        rfl
      · cases hc : sa.inCS with
        | false => rfl
        | true => exact absurd (excl a t sa _ ha' hp hc rfl) hat
    · intro a sa tmp ha hph
      rcases set_getElem?_cases _ _ _ _ _ _ hp ha with ⟨hat, hsa⟩ | ⟨hat, ha'⟩
      · rw [hsa] at hph
        exact absurd hph (by simp)
      · exact cur a sa tmp ha' hph
    · intro a sa ha hph
      rcases set_getElem?_cases _ _ _ _ _ _ hp ha with ⟨hat, hsa⟩ | ⟨hat, ha'⟩
      · rw [hsa] at hph
        exact absurd hph (by simp)
      · exact pos a sa ha' hph
    · show s.counter + ((s.threads.set t _).map contrib).sum = total
      have hss := sum_map_set contrib s.threads t
        { phase := Phase.ready, rem := r } { phase := Phase.cs2, rem := r + 1 } hp
      have h1 : contrib { phase := Phase.cs2, rem := r + 1 } = r := rfl
      have h2 : contrib { phase := Phase.ready, rem := r } = r := rfl
      rw [h1, h2] at hss
      omega
  | releaseWake t r w rest hp hq hqu =>
    refine ⟨?_, ?_, ?_, ?_, ?_⟩
    · intro a b sa sb ha hb hca hcb
      exfalso
      rcases wake_set_cases _ _ _ _ _ _ _ hp ha with ⟨hat, hsa⟩ | ⟨hat, s0, hs0, hsa⟩
      · rcases hsa with hsa | hsa <;>
          · rw [hsa] at hca
            exact absurd hca (by simp [ThreadSt.inCS, wake])
      · have hcs : s0.inCS = true := by
          rcases hsa with hsa | hsa
          · rw [← hsa]; exact hca
          · rw [hsa, inCS_wake] at hca
            exact hca
        exact hat (excl a t s0 _ hs0 hp hcs rfl)
    · intro _ a sa ha
      rcases wake_set_cases _ _ _ _ _ _ _ hp ha with ⟨hat, hsa⟩ | ⟨hat, s0, hs0, hsa⟩
      · rcases hsa with hsa | hsa <;> (rw [hsa]; rfl)
      · cases hc : s0.inCS with
        | false =>
          rcases hsa with hsa | hsa
          · rw [hsa]; exact hc
          · rw [hsa, inCS_wake]; exact hc
        | true => exact absurd (excl a t s0 _ hs0 hp hc rfl) hat
    · intro a sa tmp ha hph
      rcases wake_set_cases _ _ _ _ _ _ _ hp ha with ⟨hat, hsa⟩ | ⟨hat, s0, hs0, hsa⟩
      · exfalso
        rcases hsa with hsa | hsa <;>
          · rw [hsa] at hph
            simp [wake] at hph
      · have hph0 : s0.phase = Phase.cs1 tmp := by
          rcases hsa with hsa | hsa
          · rw [← hsa]; exact hph
          · rw [hsa, wake_phase_cs1] at hph
            exact hph
        exact cur a s0 tmp hs0 hph0
    · intro a sa ha hph
      rcases wake_set_cases _ _ _ _ _ _ _ hp ha with ⟨hat, hsa⟩ | ⟨hat, s0, hs0, hsa⟩
      · exfalso
        rcases hsa with hsa | hsa <;>
          · rw [hsa] at hph
            simp [wake] at hph
      · have hph0 : s0.phase = Phase.cs2 := by
          rcases hsa with hsa | hsa
          · rw [← hsa]; exact hph
          · rw [hsa, wake_phase_cs2] at hph
            exact hph
        have hrem : sa.rem = s0.rem := by
          rcases hsa with hsa | hsa
          · rw [hsa]
          · rw [hsa, rem_wake]
        rw [hrem]
        exact pos a s0 hs0 hph0
    · show s.counter + ((wakeAt (s.threads.set t _) w).map contrib).sum = total
      rw [sum_map_wakeAt]
      have hss := sum_map_set contrib s.threads t
        { phase := Phase.ready, rem := r } { phase := Phase.cs2, rem := r + 1 } hp
      have h1 : contrib { phase := Phase.cs2, rem := r + 1 } = r := rfl
      have h2 : contrib { phase := Phase.ready, rem := r } = r := rfl
      rw [h1, h2] at hss
      omega
  | spuriousWake t r hp =>
    refine ⟨?_, ?_, ?_, ?_, ?_⟩
    · intro a b sa sb ha hb hca hcb
      rcases set_getElem?_cases _ _ _ _ _ _ hp ha with ⟨hat, hsa⟩ | ⟨hat, ha'⟩
      · rw [hsa] at hca
        exact absurd hca (by simp [ThreadSt.inCS])
      · rcases set_getElem?_cases _ _ _ _ _ _ hp hb with ⟨hbt, hsb⟩ | ⟨hbt, hb'⟩
        · rw [hsb] at hcb
          exact absurd hcb (by simp [ThreadSt.inCS])
        · exact excl a b sa sb ha' hb' hca hcb
    · intro hf a sa ha
      have hv : s.vlock = false := by simpa using hf
      rcases set_getElem?_cases _ _ _ _ _ _ hp ha with ⟨hat, hsa⟩ | ⟨hat, ha'⟩
      · rw [hsa]
        rfl
      · exact vfree hv a sa ha'
    · intro a sa tmp ha hph
      rcases set_getElem?_cases _ _ _ _ _ _ hp ha with ⟨hat, hsa⟩ | ⟨hat, ha'⟩
      · rw [hsa] at hph
        exact absurd hph (by simp)
      · exact cur a sa tmp ha' hph
    · intro a sa ha hph
      rcases set_getElem?_cases _ _ _ _ _ _ hp ha with ⟨hat, hsa⟩ | ⟨hat, ha'⟩
      · rw [hsa] at hph
        exact absurd hph (by simp)
      · exact pos a sa ha' hph
    · show s.counter + ((s.threads.set t _).map contrib).sum = total
      have hss := sum_map_set contrib s.threads t
        { phase := Phase.ready, rem := r } { phase := Phase.parked, rem := r } hp
      have h1 : contrib { phase := Phase.parked, rem := r } = r := rfl
      have h2 : contrib { phase := Phase.ready, rem := r } = r := rfl
      rw [h1, h2] at hss
      omega

theorem inv_reach {n k : Nat} {s : Sys} (h : Reach n k s) : Inv (n * k) s := by
  induction h with
  | init => exact inv_init n k
  | step _ hstep ih => exact inv_step ih hstep

end MutecRace

namespace MutecModel

theorem getElem?_set_self {α : Type} (l : List α) (t : Nat) (v : α) (h : t < l.length) :
    (l.set t v)[t]? = some v := by
  rw [List.getElem?_set]
  simp [h]

theorem unlock_spec {T : Type} {m : Mutec T} {i : Nat} {s : Slot T}
    (h : m.inner[i]? = some s) :
    ∃ (m' : Mutec T) (w : Option Nat), m.unlock i = some (m', w) ∧
      ∃ s' : Slot T, m'.inner[i]? = some s' ∧ s'.vlock = false ∧ s'.value = s.value := by
  have hlt : i < m.inner.length := (List.getElem?_eq_some.mp h).1
  by_cases hq : s.qlock = true
  · have hu : m.unlock i = some ({ inner := m.inner.set i { s with vlock := false } }, none) := by
      unfold Mutec.unlock
      rw [h]
      simp [hq]
    exact ⟨_, _, hu, { s with vlock := false }, getElem?_set_self _ _ _ hlt, rfl, rfl⟩
  · have hq' : s.qlock = false := by simpa using hq
    cases hqu : s.queue with
    | nil =>
      have hu : m.unlock i
          = some ({ inner := m.inner.set i { s with vlock := false, qlock := true } }, none) := by
        unfold Mutec.unlock
        rw [h]
        simp [hq', hqu]
      exact ⟨_, _, hu, { s with vlock := false, qlock := true },
        getElem?_set_self _ _ _ hlt, rfl, rfl⟩
    | cons wth rest =>
      have hu : m.unlock i = some ({ inner := m.inner.set i { s with vlock := false, qlock := true, queue := rest } }, some wth) := by
        unfold Mutec.unlock
        rw [h]
        simp [hq', hqu]
      exact ⟨_, _, hu, { s with vlock := false, qlock := true, queue := rest },
        getElem?_set_self _ _ _ hlt, rfl, rfl⟩

theorem try_lock_of_free {T : Type} {m : Mutec T} {i : Nat} {s : Slot T}
    (h : m.inner[i]? = some s) (hfree : s.vlock = false) :
    m.try_lock i = some (Except.ok (i, { inner := m.inner.set i { s with vlock := true } })) := by
  unfold Mutec.try_lock
  rw [h]
  simp [hfree]

theorem lock?_of_free {T : Type} {m : Mutec T} {i : Nat} {s : Slot T}
    (h : m.inner[i]? = some s) (hfree : s.vlock = false) :
    m.lock? i = some (some (i, { inner := m.inner.set i { s with vlock := true } })) := by
  unfold Mutec.lock?
  rw [try_lock_of_free h hfree]

theorem try_lock_of_held {T : Type} {m : Mutec T} {i : Nat} {s : Slot T}
    (h : m.inner[i]? = some s) (hheld : s.vlock = true) :
    m.try_lock i = some (Except.error ()) := by
  unfold Mutec.try_lock
  rw [h]
  simp [hheld]

theorem runNext_none {T : Type} (m : Mutec T) (it : Iter) (j : Nat)
    (h : it.back_index ≤ it.index) :
    Iter.runNext m it j = some (List.replicate j none, m, it) := by
  induction j with
  | zero => rfl
  | succ j ih =>
    simp only [Iter.runNext]
    rw [show Iter.next m it = some (none, m, it) from by unfold Iter.next; rw [if_pos h]]
    show Option.map (fun r => ((none : Option Nat) :: r.1, r.2)) (Iter.runNext m it j)
      = some (List.replicate (j + 1) none, m, it)
    rw [ih]
    rfl

theorem runBack_none {T : Type} (m : Mutec T) (it : Iter) (j : Nat)
    (h : it.back_index ≤ it.index) :
    Iter.runBack m it j = some (List.replicate j none, m, it) := by
  induction j with
  | zero => rfl
  | succ j ih =>
    simp only [Iter.runBack]
    rw [show Iter.next_back m it = some (none, m, it) from by
      unfold Iter.next_back; rw [if_pos h]]
    show Option.map (fun r => ((none : Option Nat) :: r.1, r.2)) (Iter.runBack m it j)
      = some (List.replicate (j + 1) none, m, it)
    rw [ih]
    rfl

end MutecModel

namespace MutecModel

/-- C6: every construction path (array, slice, vector, iterator) routes each
element through `push` in sequence order, so element `k` is stored at index
`k`; constructing from `[1,2,3]` and locking indices 0, 1, 2 yields the
values 1, 2, 3. -/
theorem C6_construction_order {T : Type} (l : List T) :
    Mutec.from_array l = Mutec.from_iter l ∧
    Mutec.from_vec l = Mutec.from_iter l ∧
    Mutec.from_slice l = some (Mutec.from_iter l) ∧
    (Mutec.from_iter l).len = l.length ∧
    (∀ k : Nat, k < l.length → (Mutec.from_iter l).guard_read k = l[k]?) ∧
    (∃ m1 : Mutec Nat, (Mutec.from_array [1, 2, 3]).lock? 0 = some (some (0, m1)) ∧
      m1.guard_read 0 = some 1 ∧
      ∃ m2 : Mutec Nat, m1.lock? 1 = some (some (1, m2)) ∧
        m2.guard_read 1 = some 2 ∧
        ∃ m3 : Mutec Nat, m2.lock? 2 = some (some (2, m3)) ∧
          m3.guard_read 2 = some 3) := by
  refine ⟨rfl, rfl, rfl, ?_, ?_, ?_⟩
  · simp [Mutec.len, from_iter_inner]
  · intro k hk
    simp [Mutec.guard_read, from_iter_inner, List.getElem?_map,
      List.getElem?_eq_getElem hk, Slot.fresh]
  · exact ⟨_, rfl, rfl, _, rfl, rfl, _, rfl, rfl⟩

/-- C6 witness: the k-indexed read property at `[1,2,3]`, index 1. -/
theorem C6_construction_order_witness :
    1 < ([1, 2, 3] : List Nat).length ∧
      (Mutec.from_iter [1, 2, 3]).guard_read 1 = ([1, 2, 3] : List Nat)[1]? :=
  ⟨by decide, (C6_construction_order [1, 2, 3]).2.2.2.2.1 1 (by decide)⟩

/-- C7: a guard gives read and write access to the slot's value: reading
through a fresh guard for a free slot `i` yields the stored value, and
writing `x` through the guard then releasing it round-trips — the next
acquisition of `i` reads exactly `x`. -/
theorem C7_guard_roundtrip {T : Type} (m : Mutec T) (i : Nat) (s : Slot T) (x : T)
    (h : m.inner[i]? = some s) (hfree : s.vlock = false) :
    ∃ m1 : Mutec T, m.lock? i = some (some (i, m1)) ∧
      m1.guard_read i = some s.value ∧
      ∃ m2 : Mutec T, m1.guard_write i x = some m2 ∧
        ∃ (m3 : Mutec T) (w : Option Nat), m2.unlock i = some (m3, w) ∧
          ∃ m4 : Mutec T, m3.lock? i = some (some (i, m4)) ∧
            m4.guard_read i = some x := by
  have hlt : i < m.inner.length := (List.getElem?_eq_some.mp h).1
  refine ⟨_, lock?_of_free h hfree, ?_, ?_⟩
  · unfold Mutec.guard_read
    rw [getElem?_set_self _ _ _ hlt]
    rfl
  · have hg1 : ({ inner := m.inner.set i { s with vlock := true } } : Mutec T).inner[i]?
        = some { s with vlock := true } := getElem?_set_self _ _ _ hlt
    have hw : ({ inner := m.inner.set i { s with vlock := true } } : Mutec T).guard_write i x
        = some { inner := (m.inner.set i { s with vlock := true }).set i { s with vlock := true, value := x } } := by
      unfold Mutec.guard_write
      rw [hg1]
    refine ⟨_, hw, ?_⟩
    have hlt2 : i < ((m.inner.set i { s with vlock := true })).length := by
      rw [List.length_set]
      exact hlt
    have hg2 : ({ inner := (m.inner.set i { s with vlock := true }).set i { s with vlock := true, value := x } } : Mutec T).inner[i]?
        = some { s with vlock := true, value := x } := getElem?_set_self _ _ _ hlt2
    obtain ⟨m3, w, hu, s3, hg3, hv3, hval3⟩ := unlock_spec hg2
    refine ⟨m3, w, hu, _, lock?_of_free hg3 hv3, ?_⟩
    have hlt3 : i < m3.inner.length := (List.getElem?_eq_some.mp hg3).1
    unfold Mutec.guard_read
    rw [getElem?_set_self _ _ _ hlt3]
    simp [hval3]

/-- C7 witness: the round-trip at `Mutec::from([5])`, index 0, writing 9. -/
theorem C7_guard_roundtrip_witness :
    (Mutec.from_array [5]).inner[0]? = some (Slot.fresh 5) ∧
    (Slot.fresh 5).vlock = false ∧
    (∃ m1 : Mutec Nat, (Mutec.from_array [5]).lock? 0 = some (some (0, m1)) ∧
      m1.guard_read 0 = some (Slot.fresh 5).value ∧
      ∃ m2 : Mutec Nat, m1.guard_write 0 9 = some m2 ∧
        ∃ (m3 : Mutec Nat) (w : Option Nat), m2.unlock 0 = some (m3, w) ∧
          ∃ m4 : Mutec Nat, m3.lock? 0 = some (some (0, m4)) ∧
            m4.guard_read 0 = some 9) :=
  ⟨rfl, rfl, C7_guard_roundtrip (Mutec.from_array [5]) 0 (Slot.fresh 5) 9 rfl rfl⟩

/-- C8: `check_lock(i)` is a passthrough to the value-cell's flag: it reads
`false` on a fresh collection, `true` while a guard for `i` is alive, and
`false` immediately after that guard's release. -/
theorem C8_check_lock_tracks {T : Type} (l : List T) (i : Nat) (h : i < l.length) :
    (∀ (m : Mutec T) (j : Nat) (s : Slot T), m.inner[j]? = some s →
      m.check_lock j = some s.vlock) ∧
    (Mutec.from_iter l).check_lock i = some false ∧
    ∃ m1 : Mutec T, (Mutec.from_iter l).lock? i = some (some (i, m1)) ∧
      m1.check_lock i = some true ∧
      ∃ (m2 : Mutec T) (w : Option Nat), m1.unlock i = some (m2, w) ∧
        m2.check_lock i = some false := by
  have hfresh : (Mutec.from_iter l).inner[i]? = some (Slot.fresh l[i]) := by
    rw [from_iter_inner, List.getElem?_map, List.getElem?_eq_getElem h]
    rfl
  have hlt : i < (Mutec.from_iter l).inner.length := (List.getElem?_eq_some.mp hfresh).1
  refine ⟨?_, ?_, ?_⟩
  · intro m j s hs
    simp [Mutec.check_lock, hs]
  · simp [Mutec.check_lock, hfresh, Slot.fresh]
  · refine ⟨_, lock?_of_free hfresh rfl, ?_, ?_⟩
    · simp [Mutec.check_lock, getElem?_set_self _ _ _ hlt]
    · obtain ⟨m2, w, hu, s2, hg2, hv2, _⟩ :=
        unlock_spec (getElem?_set_self (Mutec.from_iter l).inner i
          { Slot.fresh l[i] with vlock := true } hlt)
      refine ⟨m2, w, hu, ?_⟩
      simp [Mutec.check_lock, hg2, hv2]

/-- C8 witness: the concrete scenario on `Mutec::from([5])` at index 0. -/
theorem C8_check_lock_tracks_witness :
    0 < ([5] : List Nat).length ∧
    ((∀ (m : Mutec Nat) (j : Nat) (s : Slot Nat), m.inner[j]? = some s →
        m.check_lock j = some s.vlock) ∧
      (Mutec.from_iter [5]).check_lock 0 = some false ∧
      ∃ m1 : Mutec Nat, (Mutec.from_iter [5]).lock? 0 = some (some (0, m1)) ∧
        m1.check_lock 0 = some true ∧
        ∃ (m2 : Mutec Nat) (w : Option Nat), m1.unlock 0 = some (m2, w) ∧
          m2.check_lock 0 = some false) :=
  ⟨by decide, C8_check_lock_tracks [5] 0 (by decide)⟩

/-- C9: allocation-failure handling is asymmetric: `try_reserve_exact`
surfaces the allocator's failure to the caller as a `Result` value and never
panics, while `extend_from_slice` turns the same reservation failure into a
`panic!` (`none`), and on success pushes each element in order. -/
theorem C9_alloc_failure_asymmetry {T : Type} (m : Mutec T) (slice : List T)
    (e : TryReserveError) :
    m.try_reserve_exact (Except.error e) = Except.error e ∧
    m.try_reserve_exact (Except.ok ()) = Except.ok m ∧
    m.extend_from_slice slice (Except.error e) = none ∧
    m.extend_from_slice slice (Except.ok ()) = some (slice.foldl Mutec.push m) :=
  ⟨rfl, rfl, rfl, rfl⟩

/-- C10: for an index outside the valid domain, `lock`, `try_lock` and
`check_lock` panic on the out-of-bounds indexing (`none`) rather than
blocking or returning the failure result; `try_lock`'s failure result is
only ever produced for an in-range slot that is currently held. -/
theorem C10_out_of_bounds_panics {T : Type} (m : Mutec T) (i : Nat) (h : m.len ≤ i) :
    m.check_lock i = none ∧ m.try_lock i = none ∧ m.lock? i = none ∧
    (∀ (m2 : Mutec T) (j : Nat), m2.try_lock j = some (Except.error ()) →
      j < m2.len ∧ m2.check_lock j = some true) := by
  have hn : m.inner[i]? = none := List.getElem?_eq_none h
  have htl : m.try_lock i = none := by
    unfold Mutec.try_lock
    rw [hn]
  refine ⟨?_, htl, ?_, ?_⟩
  · simp [Mutec.check_lock, hn]
  · unfold Mutec.lock?
    rw [htl]
  · intro m2 j htl2
    have hc := try_lock_error htl2
    refine ⟨?_, hc⟩
    cases hg : m2.inner[j]? with
    | none =>
      rw [Mutec.check_lock, hg] at hc
      simp at hc
    | some s => exact (List.getElem?_eq_some.mp hg).1

/-- C10 witness: `Mutec::from([1])` at the out-of-range index 5. -/
theorem C10_out_of_bounds_panics_witness :
    (Mutec.from_array [1]).len ≤ 5 ∧
    ((Mutec.from_array ([1] : List Nat)).check_lock 5 = none ∧
      (Mutec.from_array ([1] : List Nat)).try_lock 5 = none ∧
      (Mutec.from_array ([1] : List Nat)).lock? 5 = none ∧
      (∀ (m2 : Mutec Nat) (j : Nat), m2.try_lock j = some (Except.error ()) →
        j < m2.len ∧ m2.check_lock j = some true)) :=
  ⟨by decide, C10_out_of_bounds_panics (Mutec.from_array [1]) 5 (by decide)⟩

end MutecModel

namespace MutecModel

/-- C4: on a freshly constructed, unshared collection, the sequential cursor
visits every index exactly once: `k` forward `next` calls yield the guards
for indices `0..k-1` in strict ascending order, `k` backward `next_back`
calls yield the top `k` indices in strict descending order, the remaining
count after `k` forward steps is `length - k` (back index minus front
index), and once the front meets the back every further `next`/`next_back`
call yields nothing, leaving the cursor unchanged on every repeated call. -/
theorem C4_sequential_cursor {T : Type} (l : List T) (k : Nat) (hk : k ≤ l.length) :
    Iter.runNext (Mutec.from_iter l) ((Mutec.from_iter l).iter) k
      = some ((List.range' 0 k).map some, midF l k,
          { index := k, back_index := l.length }) ∧
    Iter.runBack (Mutec.from_iter l) ((Mutec.from_iter l).iter) k
      = some (((List.range' (l.length - k) k).reverse).map some, midB l k,
          { index := 0, back_index := l.length - k }) ∧
    Iter.len { index := k, back_index := l.length } = l.length - k ∧
    (∀ (m2 : Mutec T) (it : Iter) (j : Nat), it.back_index ≤ it.index →
      Iter.runNext m2 it j = some (List.replicate j none, m2, it) ∧
      Iter.runBack m2 it j = some (List.replicate j none, m2, it)) := by
  have hiter : (Mutec.from_iter l).iter = { index := 0, back_index := l.length } := by
    simp [Mutec.iter, from_iter_inner]
  refine ⟨?_, ?_, rfl, fun m2 it j hj => ⟨runNext_none m2 it j hj, runBack_none m2 it j hj⟩⟩
  · rw [hiter, ← midF_zero]
    have := runNext_midF l k 0 (by omega)
    simpa using this
  · rw [hiter, ← midB_zero]
    have := runBack_midB l k 0 (by omega)
    simpa using this

/-- C4 witness: the full forward and backward traversals of
`Mutec::from([5,6,7])`. -/
theorem C4_sequential_cursor_witness :
    3 ≤ ([5, 6, 7] : List Nat).length ∧
    (Iter.runNext (Mutec.from_iter [5, 6, 7]) ((Mutec.from_iter [5, 6, 7]).iter) 3
        = some ((List.range' 0 3).map some, midF [5, 6, 7] 3,
            { index := 3, back_index := ([5, 6, 7] : List Nat).length }) ∧
      Iter.runBack (Mutec.from_iter [5, 6, 7]) ((Mutec.from_iter [5, 6, 7]).iter) 3
        = some (((List.range' (([5, 6, 7] : List Nat).length - 3) 3).reverse).map some,
            midB [5, 6, 7] 3,
            { index := 0, back_index := ([5, 6, 7] : List Nat).length - 3 }) ∧
      Iter.len { index := 3, back_index := ([5, 6, 7] : List Nat).length }
        = ([5, 6, 7] : List Nat).length - 3 ∧
      (∀ (m2 : Mutec Nat) (it : Iter) (j : Nat), it.back_index ≤ it.index →
        Iter.runNext m2 it j = some (List.replicate j none, m2, it) ∧
        Iter.runBack m2 it j = some (List.replicate j none, m2, it))) :=
  ⟨by decide, C4_sequential_cursor [5, 6, 7] 3 (by decide)⟩

/-- C5: the opportunistic cursor's `next` sweeps the unmarked indices in
ascending order, returns the first acquirable one after setting its marker,
re-sweeps without suspending when the sweep saw an unmarked index but
acquired nothing, and returns nothing exactly when every marker is set; over
an unshared collection a full traversal returns every index exactly once. -/
theorem C5_async_cursor {T : Type} (l : List T) :
    AsyncIter.run (Mutec.from_iter l) ((Mutec.from_iter l).async_iter) l.length
      = some (List.range l.length, midF l l.length,
          { progress := List.replicate l.length true }) ∧
    AsyncIter.next (midF l l.length) { progress := List.replicate l.length true }
      = some AsyncOut.exhausted ∧
    (∀ (m : Mutec T) (it : AsyncIter),
      AsyncIter.next m it = some AsyncOut.exhausted ↔ it.progress.all (fun b => b) = true) ∧
    (∀ (m m' : Mutec T) (it it' : AsyncIter) (g : Nat),
      AsyncIter.next m it = some (AsyncOut.yields g m' it') →
        it.progress[g]? = some false ∧
        m.try_lock g = some (Except.ok (g, m')) ∧
        it'.progress = it.progress.set g true ∧
        (∀ j : Nat, j < g → it.progress[j]? = some true ∨ m.check_lock j = some true)) ∧
    (∀ (m : Mutec T) (it : AsyncIter),
      AsyncIter.next m it = some AsyncOut.spins →
        (∃ j : Nat, it.progress[j]? = some false) ∧
        (∀ j : Nat, it.progress[j]? = some false → m.check_lock j = some true)) := by
  refine ⟨?_, ?_, ?_, ?_, ?_⟩
  · have hasync : (Mutec.from_iter l).async_iter
        = { progress := List.replicate l.length false } := by
      simp [Mutec.async_iter, from_iter_inner]
    rw [hasync, ← midF_zero]
    have := asyncRun_prog l l.length 0 (by omega)
    simpa [List.range_eq_range'] using this
  · have hall : (List.replicate l.length true).all (fun b => b) = true := by
      rw [List.all_eq_true]
      intro x hx
      exact (List.mem_replicate.mp hx).2
    unfold AsyncIter.next
    rw [sweepAux_all_true (midF l l.length) _ 0 hall]
  · intro m it
    constructor
    · intro h
      unfold AsyncIter.next at h
      cases hsw : sweepAux m it.progress 0 with
      | none => rw [hsw] at h; exact absurd h (by simp)
      | some res =>
        rw [hsw] at h
        obtain ⟨f1, f2⟩ := res
        cases f1 with
        | some r =>
          obtain ⟨g0, m0⟩ := r
          simp at h
        | none =>
          cases f2 with
          | true => simp at h
          | false =>
            have hnf := (sweepAux_no_find hsw).2
            rw [List.all_eq_true]
            intro x hx
            obtain ⟨d, hd⟩ := List.mem_iff_getElem?.mp hx
            cases hxv : x with
            | true => rfl
            | false =>
              exfalso
              rw [hxv] at hd
              have : (false : Bool) = true := hnf.mpr ⟨d, hd⟩
              simp at this
    · intro hall
      unfold AsyncIter.next
      rw [sweepAux_all_true m it.progress 0 hall]
  · intro m m' it it' g h
    unfold AsyncIter.next at h
    cases hsw : sweepAux m it.progress 0 with
    | none => rw [hsw] at h; exact absurd h (by simp)
    | some res =>
      rw [hsw] at h
      obtain ⟨f1, f2⟩ := res
      cases f1 with
      | none => cases f2 <;> simp at h
      | some r =>
        obtain ⟨g0, m0⟩ := r
        have hinj : g0 = g ∧ m0 = m' ∧ ({ progress := it.progress.set g0 true } : AsyncIter) = it' := by
          have h' : AsyncOut.yields g0 m0 ({ progress := it.progress.set g0 true } : AsyncIter)
              = AsyncOut.yields g m' it' := by simpa using h
          exact ⟨by injection h', by injection h', by injection h'⟩
        obtain ⟨hg0, hm0, hit'⟩ := hinj
        rw [hg0, hm0] at hsw
        obtain ⟨d, hd1, hd2, hd3, hd4⟩ := sweepAux_yields hsw
        have hdg : d = g := by omega
        rw [hdg] at hd2
        refine ⟨hd2, hd3, ?_, ?_⟩
        · rw [← hit']
          show it.progress.set g0 true = it.progress.set g true
          rw [hg0]
        · intro j hj
          have := hd4 j (by omega)
          simpa using this
  · intro m it h
    unfold AsyncIter.next at h
    cases hsw : sweepAux m it.progress 0 with
    | none => rw [hsw] at h; exact absurd h (by simp)
    | some res =>
      rw [hsw] at h
      obtain ⟨f1, f2⟩ := res
      cases f1 with
      | some r => obtain ⟨g0, m0⟩ := r; simp at h
      | none =>
        cases f2 with
        | false => simp at h
        | true =>
          obtain ⟨h1, h2⟩ := sweepAux_no_find hsw
          refine ⟨h2.mp rfl, ?_⟩
          intro j hj
          have := h1 j hj
          simpa using this

/-- C5 witness: the full traversal of `Mutec::from([5,2,7])` and the
first-success characterization at its first `next` call. -/
theorem C5_async_cursor_witness :
    (AsyncIter.run (Mutec.from_iter [5, 2, 7])
        ((Mutec.from_iter [5, 2, 7]).async_iter) ([5, 2, 7] : List Nat).length
      = some (List.range ([5, 2, 7] : List Nat).length, midF [5, 2, 7] ([5, 2, 7] : List Nat).length,
          { progress := List.replicate ([5, 2, 7] : List Nat).length true })) ∧
    (({ progress := [false, false, false] } : AsyncIter).progress[0]? = some false) :=
  ⟨(C5_async_cursor [5, 2, 7]).1,
    ((C5_async_cursor [5, 2, 7]).2.2.2.1 (Mutec.from_iter [5, 2, 7]) (midF [5, 2, 7] 1)
      { progress := [false, false, false] } { progress := [true, false, false] } 0 rfl).1⟩

end MutecModel

namespace MutecRace

/-- C3: mutual exclusion for one slot. In every state reachable by any
interleaving of `n` threads each performing `k` repetitions of
lock → read → increment-write → release on the same index, at most one
guard is alive (at most one thread is inside the critical section), and in
any final state where every thread has completed, the shared counter equals
exactly `n * k`: no increment is lost. -/
theorem C3_mutual_exclusion_no_lost_updates {n k : Nat} {s : Sys} (h : Reach n k s) :
    MutualExcl s ∧ (AllDone s → s.counter = n * k) := by
  have hinv := inv_reach h
  constructor
  · exact hinv.excl
  · intro hdone
    have hsum := hinv.sum_eq
    have hzero : (s.threads.map contrib).sum = 0 := by
      apply List.sum_eq_zero
      intro x hx
      rw [List.mem_map] at hx
      obtain ⟨ts, hts, hxeq⟩ := hx
      obtain ⟨t, ht⟩ := List.mem_iff_getElem?.mp hts
      have hts0 := hdone t ts ht
      rw [hts0] at hxeq
      rw [← hxeq]
      rfl
    omega

/-- C3 witness: one thread, one iteration, run to completion through
acquire, read, write and release; the final counter is `1 * 1`. -/
theorem C3_mutual_exclusion_no_lost_updates_witness :
    MutualExcl { counter := 1, vlock := false, qlock := true, queue := [], threads := [{ phase := Phase.ready, rem := 0 }] } ∧
    (AllDone { counter := 1, vlock := false, qlock := true, queue := [], threads := [{ phase := Phase.ready, rem := 0 }] } →
      Sys.counter { counter := 1, vlock := false, qlock := true, queue := [], threads := [{ phase := Phase.ready, rem := 0 }] } = 1 * 1) :=
  C3_mutual_exclusion_no_lost_updates
    (Reach.step
      (Reach.step
        (Reach.step
          (Reach.step Reach.init (Step.acquire (init 1 1) 0 0 rfl rfl))
          (Step.readv _ 0 0 rfl))
        (Step.writev _ 0 0 0 rfl))
      (Step.releaseQEmpty _ 0 0 rfl rfl rfl))

end MutecRace

namespace MutecModel

/-- C1: the claim says that after a guard's scope-exit release returns, the
slot's queue-cell lock is free again, as it is after `lock()`'s enqueue step.
Evaluating `Mutec::unlock` at `Mutec::from([1])` after `lock(0)` refutes
this: `unlock` acquires the queue-cell by `try_lock` and never releases it,
so the queue-cell flag is still set when the release returns, while the
enqueue step inside `lock` does leave it free. -/
theorem C1_unlock_leaves_queue_cell_locked :
    ∃ m1 : Mutec Nat, (Mutec.from_array [1]).try_lock 0 = some (Except.ok (0, m1)) ∧
      ∃ m2 : Mutec Nat, m1.unlock 0 = some (m2, none) ∧
        m2.check_lock 0 = some false ∧
        (m2.inner[0]?).map Slot.qlock = some true ∧
        ∃ m3 : Mutec Nat, (Mutec.from_array [1]).lock_enqueue 0 7 = some m3 ∧
          (m3.inner[0]?).map Slot.qlock = some false := by
  refine ⟨{ inner := [Slot.locked 1] }, rfl,
    { inner := [{ vlock := false, value := 1, qlock := true, queue := [] }] }, rfl,
    rfl, rfl,
    { inner := [{ vlock := false, value := 1, qlock := false, queue := [7] }] }, rfl, rfl⟩

/-- C2: for a valid index, `try_lock(i)` fails exactly when slot `i`'s
value-cell is held, and the failure carries no payload (`Err(())`, the
`Except.error ()` case of the result type); while a guard is alive a second
`try_lock` fails, and after the guard's release a subsequent `try_lock`
succeeds. -/
theorem C2_try_lock_already_held {T : Type} (m : Mutec T) (i : Nat) (s : Slot T)
    (h : m.inner[i]? = some s) :
    (m.try_lock i = some (Except.error ()) ↔ s.vlock = true) ∧
    (s.vlock = false →
      ∃ m1 : Mutec T, m.try_lock i = some (Except.ok (i, m1)) ∧
        m1.try_lock i = some (Except.error ()) ∧
        ∃ (m2 : Mutec T) (w : Option Nat), m1.unlock i = some (m2, w) ∧
          ∃ m3 : Mutec T, m2.try_lock i = some (Except.ok (i, m3))) := by
  have hlt : i < m.inner.length := (List.getElem?_eq_some.mp h).1
  constructor
  · constructor
    · intro htl
      by_contra hv
      have hfree : s.vlock = false := by
        cases hvv : s.vlock
        · rfl
        · exact absurd hvv hv
      rw [try_lock_of_free h hfree] at htl
      simp at htl
    · intro hv
      exact try_lock_of_held h hv
  · intro hfree
    refine ⟨_, try_lock_of_free h hfree, ?_, ?_⟩
    · exact try_lock_of_held (getElem?_set_self _ _ _ hlt) rfl
    · obtain ⟨m2, w, hu, s2, hg2, hv2, _⟩ :=
        unlock_spec (getElem?_set_self m.inner i { s with vlock := true } hlt)
      exact ⟨m2, w, hu, _, try_lock_of_free hg2 hv2⟩

/-- C2 witness: the concrete scenario on `Mutec::from([5])` at index 0. -/
theorem C2_try_lock_already_held_witness :
    (Mutec.from_array [5]).inner[0]? = some (Slot.fresh 5) ∧
    (((Mutec.from_array [5]).try_lock 0 = some (Except.error ()))
        ↔ (Slot.fresh 5).vlock = true) ∧
    ((Slot.fresh 5).vlock = false →
      ∃ m1 : Mutec Nat, (Mutec.from_array [5]).try_lock 0 = some (Except.ok (0, m1)) ∧
        m1.try_lock 0 = some (Except.error ()) ∧
        ∃ (m2 : Mutec Nat) (w : Option Nat), m1.unlock 0 = some (m2, w) ∧
          ∃ m3 : Mutec Nat, m2.try_lock 0 = some (Except.ok (0, m3))) :=
  ⟨rfl, C2_try_lock_already_held (Mutec.from_array [5]) 0 (Slot.fresh 5) rfl⟩

end MutecModel
